import Mathlib

/-!
Verification of the medical_assistant retrieval-and-reasoning pipeline.

The repository's Python code (`document_processor.py`, `search.py`,
`database.py`, `app.py`) is shallowly embedded below.  Python strings are
modelled as lists of unicode code points (`Str := List Char`), so `len`
becomes `List.length`, `split` becomes an explicit splitter, and slicing
becomes `take`/`drop`.  External services (the embedding model, the chat
model, the cross-encoder scores and the vector store) are passed in as
explicit oracles, exactly at the points where the Python code calls out.
-/

set_option maxRecDepth 4000

namespace MedAssist

/-- Python strings modelled as lists of unicode code points. -/
abbrev Str := List Char

/-- Character list of a Lean string literal. -/
def chars (s : String) : Str := s.data

/-- Python `str.strip()`: remove whitespace from both ends. -/
def trimL (s : Str) : Str :=
  ((s.dropWhile Char.isWhitespace).reverse.dropWhile Char.isWhitespace).reverse

/-- Python `str.strip(c)`: remove the character `c` from both ends. -/
def stripChar (c : Char) (s : Str) : Str :=
  ((s.dropWhile (· = c)).reverse.dropWhile (· = c)).reverse

/-- Split off everything before / after the first occurrence of `sep`;
`none` when `sep` does not occur. -/
def breakOn (sep : Str) : Str → Option (Str × Str)
  | [] => none
  | c :: rest =>
    if sep.isPrefixOf (c :: rest) then some ([], (c :: rest).drop sep.length)
    else
      match breakOn sep rest with
      | none => none
      | some (pre, post) => some (c :: pre, post)

/-- Fuel-driven worker for `splitOnStr` (structural, hence kernel-evaluable). -/
def splitOnFuel (sep : Str) : Nat → Str → List Str
  | 0, s => [s]
  | fuel + 1, s =>
    match breakOn sep s with
    | none => [s]
    | some (pre, post) => pre :: splitOnFuel sep fuel post

/-- Python `str.split(sep)` for a non-empty separator. -/
def splitOnStr (sep s : Str) : List Str := splitOnFuel sep s.length s

/-- Python substring containment, `needle in hay`. -/
def containsSub : Str → Str → Bool
  | [], needle => needle.isEmpty
  | c :: t, needle => needle.isPrefixOf (c :: t) || containsSub t needle

/-! Configuration constants, from `config.py`. -/

def CHUNK_SIZE : Nat := 600
def CHUNK_OVERLAP_LINES : Nat := 3
def BATCH_SIZE : Nat := 20
def MULTI_QUERY_COUNT : Nat := 3
def RECALL_N_RESULTS : Nat := 5
def RERANK_TOP_K : Nat := 3
def RERANK_THRESHOLD : Int := -10
def MAX_REASONING_STEPS : Nat := 5

/-! Chunker, from `document_processor.py` (`MarkdownProcessor.split_smart`). -/

/-- Python slice `l[-n:]`.  For `n = 0` Python's `l[-0:]` is the whole list. -/
def takeLastPy (n : Nat) (l : List α) : List α :=
  if n = 0 then l else l.drop (l.length - n)

/-- Header-stack update for a heading of the given level
(`if len(current_headers) >= level: current_headers = current_headers[:level-1]`
followed by `current_headers.append(title)`).  Call sites always have
`level ≥ 1` since the line starts with a `#`. -/
def updateHeaders (headers : List Str) (level : Nat) (title : Str) : List Str :=
  (if level ≤ headers.length then headers.take (level - 1) else headers) ++ [title]

structure SplitState where
  chunks : List Str
  currentChunk : List Str
  currentLength : Nat
  currentHeaders : List Str
deriving Repr, DecidableEq

/-- The emitted chunk text:
`f"【章节：{header_context}】\n" + "\n".join(current_chunk)`. -/
def sectionText (headers : List Str) (bodyLines : List Str) : Str :=
  chars "【章节：" ++ List.intercalate (chars " > ") headers ++ chars "】\n"
    ++ List.intercalate (chars "\n") bodyLines

/-- One loop iteration of `split_smart` over a line. -/
def splitStep (chunkSize overlapLines : Nat) (st : SplitState) (line : Str) : SplitState :=
  let stripped := trimL line
  if stripped.head? = some '#' then
    let level := (stripped.takeWhile (· = '#')).length
    let title := trimL (stripChar '#' stripped)
    { st with
      currentHeaders := updateHeaders st.currentHeaders level title
      currentChunk := st.currentChunk ++ [line]
      currentLength := st.currentLength + line.length }
  else
    let cc := st.currentChunk ++ [line]
    let cl := st.currentLength + line.length
    if chunkSize < cl then
      let kept := takeLastPy overlapLines cc
      { chunks := st.chunks ++ [sectionText st.currentHeaders cc]
        currentChunk := kept
        currentLength := (kept.map List.length).sum
        currentHeaders := st.currentHeaders }
    else
      { st with currentChunk := cc, currentLength := cl }

/-- `MarkdownProcessor.split_smart(text, chunk_size, overlap_lines)`. -/
def split_smart (text : Str) (chunkSize overlapLines : Nat) : List Str :=
  let lines := splitOnStr (chars "\n") text
  let st := lines.foldl (splitStep chunkSize overlapLines) ⟨[], [], 0, []⟩
  if st.currentChunk.isEmpty then st.chunks
  else st.chunks ++ [sectionText st.currentHeaders st.currentChunk]

/-! Query expansion, from `search.py` (`QueryExpander.expand`). -/

/-- The per-line cleanup `q.split('.')[-1].strip()`. -/
def cleanLine (q : Str) : Str := trimL ((splitOnStr (chars ".") q).getLastD [])

/-- Parsing of the model's expansion output:
`queries = content.strip().split('\n')`;
`clean_queries = [q.split('.')[-1].strip() for q in queries if q.strip()]`;
`return [query] + clean_queries[:count]`. -/
def expandParse (query : Str) (count : Nat) (content : Str) : List Str :=
  let queries := splitOnStr (chars "\n") (trimL content)
  let clean := (queries.filter (fun q => !(trimL q).isEmpty)).map cleanLine
  query :: clean.take count

/-- `QueryExpander.expand`; `modelOutput = none` models the `except` branch
(model unreachable), which degrades to `[query]`. -/
def expand (query : Str) (count : Nat) (modelOutput : Option Str) : List Str :=
  match modelOutput with
  | none => [query]
  | some content => expandParse query count content

/-- Modelled from the claim's words, not from the source: remove only a
leading number-dot-space enumeration prefix from a line, leaving the rest
unchanged.  Used to compare the spec's description with the code's parsing. -/
def stripEnum (line : Str) : Str :=
  let ds := line.takeWhile Char.isDigit
  let rest := line.drop ds.length
  if ds ≠ [] ∧ rest.take 2 = chars ". " then rest.drop 2 else line

/-! Multi-recall, from `search.py` (`MedicalSearchEngine._multi_recall`). -/

/-- Chunk metadata: `none` models a missing/empty metadata dict, `some s`
a dict whose `source` entry is `s`. -/
abbrev Meta := Option Str

/-- The fallback `if not metas: metas = [{}] * len(docs)`. -/
def padMetas (docs : List Str) (metas : List Meta) : List Meta :=
  if metas.isEmpty then List.replicate docs.length none else metas

/-- The `zip(docs, metas)` pairing of one recall batch. -/
def recallPairs (docs : List Str) (metas : List Meta) : List (Str × Meta) :=
  docs.zip (padMetas docs metas)

/-- The dedup body: a document already in the accumulated list is dropped
(the Python `seen_docs` set always holds exactly the accumulated texts). -/
def dedupStep (acc : List Str × List Meta) (p : Str × Meta) : List Str × List Meta :=
  if p.1 ∈ acc.1 then acc else (acc.1 ++ [p.1], acc.2 ++ [p.2])

/-- `_multi_recall` over per-variant oracle outcomes: `none` models a variant
whose embedding call failed (`if not embedding: continue`) or whose store
query raised (`except` branch); `some (docs, metas)` a successful query. -/
def multiRecall (variants : List (Option (List Str × List Meta))) :
    List Str × List Meta :=
  variants.foldl
    (fun acc v =>
      match v with
      | none => acc
      | some (docs, metas) => (recallPairs docs metas).foldl dedupStep acc)
    ([], [])

/-- The pairs contributed by the successful variants, in merge order. -/
def okPairs (variants : List (Option (List Str × List Meta))) : List (Str × Meta) :=
  variants.foldr
    (fun v acc =>
      match v with
      | none => acc
      | some (docs, metas) => recallPairs docs metas ++ acc)
    []

/-- Reference first-occurrence deduplication: keep an element, drop all its
later duplicates. -/
def ddf : List Str → List Str
  | [] => []
  | x :: xs => x :: ddf (xs.filter (fun y => y != x))
termination_by l => l.length
decreasing_by
  simp only [List.length_cons]
  exact Nat.lt_succ_of_le (List.length_filter_le _ _)

/-! Reranker, from `search.py` (`Reranker.rerank`).  The cross-encoder scores
are an oracle; `scored_docs.sort(key=lambda x: x[1], reverse=True)` is
Python's stable sort, realised here as a stable insertion sort. -/

/-- Insert into a descending-sorted list, after any earlier equal-score
entries already present (stability). -/
def insertDesc (key : α → Int) (x : α) : List α → List α
  | [] => [x]
  | y :: ys => if key y ≤ key x then x :: y :: ys else y :: insertDesc key x ys

/-- Stable descending sort by an integer key. -/
def sortStableDesc (key : α → Int) (l : List α) : List α :=
  l.foldr (insertDesc key) []

/-- Score component of a `(document, score, metadata)` triple, the sort key
`lambda x: x[1]`. -/
def scoreOf (x : Str × Int × Meta) : Int := x.2.1

/-- `Reranker.rerank(query, documents, metadatas)` with the predicted scores
supplied as an oracle list (zipped positionally like the Python `zip`). -/
def rerank (query : Str) (documents : List Str) (scores : List Int)
    (metadatas : List Meta) : List (Str × Int × Meta) :=
  if documents.isEmpty then []
  else sortStableDesc scoreOf (documents.zip (scores.zip metadatas))

/-! Search orchestration, from `search.py` (`MedicalSearchEngine.search`). -/

/-- `meta.get('source', '未知来源') if meta else '未知来源'`. -/
def sourceName (m : Meta) : Str := m.getD (chars "未知来源")

/-- `f"{doc}\n[来源: {source_name}]"`. -/
def annotate (doc : Str) (m : Meta) : Str :=
  doc ++ chars "\n[来源: " ++ sourceName m ++ chars "]"

/-- The filtering body:
`if len(top_k_docs) < RERANK_TOP_K and score > RERANK_THRESHOLD`. -/
def keepStep (acc : List Str) (x : Str × Int × Meta) : List Str :=
  if acc.length < RERANK_TOP_K ∧ RERANK_THRESHOLD < scoreOf x then
    acc ++ [annotate x.1 x.2.2]
  else acc

/-- The walk over the reranked list that keeps at most `RERANK_TOP_K`
above-threshold chunks. -/
def topKFilter (scored : List (Str × Int × Meta)) : List Str :=
  scored.foldl keepStep []

def NO_MATERIAL : Str := chars "未找到相关资料。"
def LOW_RELEVANCE : Str := chars "资料相关度较低，建议补充细节。"

/-- `MedicalSearchEngine.search`, returning the evidence text.  `variants`
are the per-expanded-query recall outcomes (one entry per query produced by
the expander), `scores` the cross-encoder oracle. -/
def search (query : Str) (variants : List (Option (List Str × List Meta)))
    (scores : List Int) : Str :=
  let r := multiRecall variants
  if r.1.isEmpty then NO_MATERIAL
  else
    let kept := topKFilter (rerank query r.1 scores r.2)
    if kept.isEmpty then LOW_RELEVANCE
    else List.intercalate (chars "\n---\n") kept

/-! Reasoning loop, from `app.py` (the `for step in range(5)` loop). -/

inductive LoopStatus where
  | complete
  | completeDirect
  | forced
  | noConclusion
deriving Repr, DecidableEq

structure LoopSt where
  lastAction : Str
  finalAnswer : Str
  searchLog : List Str
  obsLog : List Str
  breakStatus : Option LoopStatus
deriving Repr, DecidableEq

def initLoopSt : LoopSt := ⟨[], [], [], [], none⟩

def MARKER_HALF : Str := chars "检索:"
def MARKER_FULL : Str := chars "检索："
def MARKER_BARE : Str := chars "检索"
def FINAL_MARKER : Str := chars "Final Answer"
def SYNTHETIC_OBS : Str := chars "Observation: 已搜索过该词，无新信息。请尝试总结。"
def NO_CONCLUSION : Str := chars "抱歉，我未查到相关资料，未能得出明确结论。"

/-- `ai_content.split(splitter)[-1].split("\n")[0].strip()` with the
splitter chosen as in the code (half-width colon preferred). -/
def extractKeyword (ai : Str) : Str :=
  let splitter := if containsSub ai MARKER_HALF then MARKER_HALF else MARKER_FULL
  trimL ((splitOnStr (chars "\n") ((splitOnStr splitter ai).getLastD [])).headD [])

/-- `ai_content.split("Final Answer")[-1].lstrip(":").lstrip("：").strip()`. -/
def extractFinal (ai : Str) : Str :=
  trimL ((((splitOnStr FINAL_MARKER ai).getLastD []).dropWhile (· = ':')).dropWhile (· = '：'))

/-- One iteration of the reasoning loop on the model reply `ai`, with the
search orchestrator as an oracle.  `searchLog` records each keyword for
which `search_memory` is actually invoked; `obsLog` the observation turns
appended to the conversation. -/
def stepFn (searchRes : Str → Str) (ai : Str) (st : LoopSt) : LoopSt :=
  let st1 :=
    if containsSub ai MARKER_HALF || containsSub ai MARKER_FULL then
      let keyword := extractKeyword ai
      if keyword = st.lastAction then
        { st with obsLog := st.obsLog ++ [SYNTHETIC_OBS] }
      else
        { st with
          searchLog := st.searchLog ++ [keyword]
          obsLog := st.obsLog ++ [chars "Observation: " ++ searchRes keyword]
          lastAction := keyword }
    else st
  if containsSub ai FINAL_MARKER then
    { st1 with finalAnswer := extractFinal ai, breakStatus := some .complete }
  else if !containsSub ai MARKER_BARE && decide (20 < ai.length) then
    { st1 with finalAnswer := ai, breakStatus := some .completeDirect }
  else st1

/-- Run up to `fuel` loop iterations starting at step index `i`; a set
`breakStatus` models the Python `break`.  Also returns the last reply seen
(the Python variable `ai_content`). -/
def runLoopAux (model : Nat → Str) (searchRes : Str → Str) :
    Nat → Nat → LoopSt → Str → LoopSt × Str
  | 0, _, st, lastReply => (st, lastReply)
  | fuel + 1, i, st, lastReply =>
    if st.breakStatus.isSome then (st, lastReply)
    else
      let ai := model i
      runLoopAux model searchRes fuel (i + 1) (stepFn searchRes ai st) ai

/-- The post-loop fallback `if not final_answer: ...` plus the status label
reported to the UI. -/
def finalize (st : LoopSt) (lastReply : Str) : Str × LoopStatus :=
  if st.finalAnswer = [] then
    if 10 < lastReply.length then (lastReply, .forced)
    else (NO_CONCLUSION, .noConclusion)
  else (st.finalAnswer, st.breakStatus.getD .complete)

structure LoopResult where
  state : LoopSt
  lastReply : Str
  answer : Str
  status : LoopStatus
deriving Repr, DecidableEq

/-- The whole reasoning loop: 5 steps, then the forced-termination fallback. -/
def runLoop (model : Nat → Str) (searchRes : Str → Str) : LoopResult :=
  let p := runLoopAux model searchRes MAX_REASONING_STEPS 0 initLoopSt []
  let f := finalize p.1 p.2
  ⟨p.1, p.2, f.1, f.2⟩

/-! Ingestion, from `document_processor.py` (`DocumentEmbedder.process_file`)
and `database.py` (`MedicalKnowledgeDB`). -/

/-- A stored chunk record: document text, `source` filename, `chunk_index`
(the opaque uuid id is irrelevant to the claims). -/
abbrev DBRec := Str × Str × Nat

abbrev DB := List DBRec

/-- `MedicalKnowledgeDB.get_existing_files`: the distinct `source` values of
the stored metadata (empty sources are filtered out by
`if m and m.get('source')`); modelled as the listing with membership as the
set-containment query. -/
def get_existing_files (db : DB) : List Str :=
  (db.map (fun r => r.2.1)).filter (fun s => !s.isEmpty)

inductive PFResult where
  | exist
  | empty
  | err (msg : Str)
  | ok (count : Nat)
deriving Repr, DecidableEq

/-- A successful `add_chunks` call commits the batch. -/
def addBatch (db : DB) (filename : Str) (batch : List (Str × Nat)) : DB :=
  db ++ batch.map (fun p => (p.1, filename, p.2))

/-- The chunk loop of `process_file`: skip short chunks, skip failed
embeddings, flush full batches.  `embed` is the embedding oracle (`none` =
failure), `addErr i` the outcome of the `i`-th `add_chunks` call.  Returns
(error, processed_count, add-call count, store), with the store keeping all
batches committed before a failure. -/
def ingestLoop (filename : Str) (embed : Str → Option (List Int))
    (addErr : Nat → Option Str) :
    List (Nat × Str) → List (Str × Nat) → Nat → Nat → DB →
      Option Str × Nat × Nat × DB
  | [], batch, processed, addCalls, db =>
    if batch.isEmpty then (none, processed, addCalls, db)
    else
      match addErr addCalls with
      | some e => (some e, processed, addCalls + 1, db)
      | none => (none, processed + batch.length, addCalls + 1, addBatch db filename batch)
  | (i, chunk) :: rest, batch, processed, addCalls, db =>
    if chunk.length < 10 then
      ingestLoop filename embed addErr rest batch processed addCalls db
    else
      match embed chunk with
      | none => ingestLoop filename embed addErr rest batch processed addCalls db
      | some _ =>
        let batch1 := batch ++ [(chunk, i)]
        if BATCH_SIZE ≤ batch1.length then
          match addErr addCalls with
          | some e => (some e, processed, addCalls + 1, db)
          | none =>
            ingestLoop filename embed addErr rest [] (processed + batch1.length)
              (addCalls + 1) (addBatch db filename batch1)
        else ingestLoop filename embed addErr rest batch1 processed addCalls db

/-- `DocumentEmbedder.process_file(content, filename, db)`. -/
def process_file (content filename : Str) (embed : Str → Option (List Int))
    (addErr : Nat → Option Str) (db : DB) : PFResult × DB :=
  if filename ∈ get_existing_files db then (.exist, db)
  else
    let raw := split_smart content CHUNK_SIZE CHUNK_OVERLAP_LINES
    if raw.isEmpty then (.empty, db)
    else
      match ingestLoop filename embed addErr raw.enum [] 0 0 db with
      | (some e, _, _, db1) => (.err e, db1)
      | (none, processed, _, db1) => (.ok processed, db1)

/-! Theorems.  General-purpose helper lemmas come first, then one theorem
per claim (with its witness or counterexample). -/

theorem take_of_le_length {l : List α} {n : Nat} (h : l.length ≤ n) : l.take n = l :=
  List.take_of_length_le h

/-- Claim C6: on each heading line of level `L` the heading stack is
truncated to its first `L-1` entries and the new title pushed, so a heading
replaces same-level and deeper context while keeping ancestor context; for
headings `#A`, `##B`, `##C` the stack ends as `["A", "C"]`, and content
under `C` is annotated with the section path `A > C`, not `A > B > C`. -/
theorem c6_heading_stack_replacement :
    (∀ (headers : List Str) (level : Nat) (title : Str), 1 ≤ level →
      updateHeaders headers level title = headers.take (level - 1) ++ [title])
    ∧ ((["#A", "##B", "##C"].map chars).foldl (splitStep 600 3)
        ⟨[], [], 0, []⟩).currentHeaders = [chars "A", chars "C"]
    ∧ (split_smart (chars "#A\n##B\nbbbbbbbbbb\n##C\ncccccccccc") 10 3)[1]?
        = some (chars "【章节：A > C】\n#A\n##B\nbbbbbbbbbb\n##C\ncccccccccc") := by
  refine ⟨?_, by decide, by decide⟩
  intro headers level title _
  unfold updateHeaders
  split
  · rfl
  · next hlen =>
    rw [take_of_le_length (by omega)]

theorem c6_witness :
    updateHeaders [chars "A", chars "B"] 2 (chars "C") = [chars "A", chars "C"] := by
  rw [c6_heading_stack_replacement.1 [chars "A", chars "B"] 2 (chars "C") (by decide)]
  decide

/-- Claim C7 counterexample: the chunker applied to the empty input does not
return the empty chunk sequence; Python's `"".split('\n')` is `[""]`, so one
header-only chunk is emitted. -/
theorem c7_counterexample :
    split_smart (chars "") CHUNK_SIZE CHUNK_OVERLAP_LINES = [chars "【章节：】\n"]
    ∧ split_smart (chars "") CHUNK_SIZE CHUNK_OVERLAP_LINES ≠ [] := by
  exact ⟨by decide, by decide⟩

/-- Claim C7 amended: the chunker applied to empty input returns exactly one
chunk, the bare section annotation `"【章节：】\n"`, whose length 6 is below
the ingestion caller's 10-character minimum, so it is discarded before
embedding and nothing is stored. -/
theorem c7_amended :
    split_smart (chars "") CHUNK_SIZE CHUNK_OVERLAP_LINES = [chars "【章节：】\n"]
    ∧ (chars "【章节：】\n").length < 10 := by
  exact ⟨by decide, by decide⟩

/-- Claim C8 counterexample: a non-blank line with an interior period and no
leading enumeration is not passed through unchanged — the code keeps only
the text after the line's last `'.'` (`q.split('.')[-1].strip()`). -/
theorem c8_counterexample :
    expandParse (chars "q") 3 (chars "blood pressure 2.5 target")
      = [chars "q", chars "5 target"]
    ∧ stripEnum (chars "blood pressure 2.5 target") = chars "blood pressure 2.5 target"
    ∧ expandParse (chars "q") 3 (chars "blood pressure 2.5 target")
      ≠ [chars "q", stripEnum (chars "blood pressure 2.5 target")] := by
  exact ⟨by decide, by decide, by decide⟩

/-- Claim C8 amended: the returned sequence is the original query followed
by at most `count` variants, and every variant is a non-blank line of the
model output reduced to the text after the line's last `'.'` (the whole
line when it has no `'.'`), trimmed of surrounding whitespace. -/
theorem c8_amended (query content : Str) (count : Nat) :
    (expandParse query count content).head? = some query
    ∧ (expandParse query count content).tail.length ≤ count
    ∧ ∀ v ∈ (expandParse query count content).tail,
        ∃ line ∈ splitOnStr (chars "\n") (trimL content),
          (trimL line).isEmpty = false ∧ v = cleanLine line := by
  refine ⟨rfl, ?_, ?_⟩
  · simp only [expandParse, List.tail_cons, List.length_take]
    omega
  · intro v hv
    simp only [expandParse, List.tail_cons] at hv
    have hv' := List.mem_of_mem_take hv
    obtain ⟨line, hline, rfl⟩ := List.mem_map.mp hv'
    rw [List.mem_filter] at hline
    refine ⟨line, hline.1, ?_, rfl⟩
    simpa using hline.2

theorem c8_amended_witness :
    ∃ line ∈ splitOnStr (chars "\n") (trimL (chars "a. b\n\nc")),
      (trimL line).isEmpty = false ∧ chars "b" = cleanLine line :=
  (c8_amended (chars "q") (chars "a. b\n\nc") 3).2.2 (chars "b") (by decide)

theorem isPrefixOf_append_mono (p q l : Str) (h : (p ++ q).isPrefixOf l = true) :
    p.isPrefixOf l = true := by
  induction p generalizing l with
  | nil => simp [List.isPrefixOf]
  | cons a p ih =>
    cases l with
    | nil => simp [List.isPrefixOf] at h
    | cons b l =>
      simp only [List.cons_append, List.isPrefixOf, Bool.and_eq_true] at h ⊢
      exact ⟨h.1, ih l h.2⟩

theorem containsSub_append (p q : Str) :
    ∀ hay, containsSub hay (p ++ q) = true → containsSub hay p = true := by
  intro hay
  induction hay with
  | nil =>
    simp only [containsSub, List.isEmpty_iff, List.append_eq_nil, and_imp]
    intro h1 _
    simp [h1]
  | cons c t ih =>
    simp only [containsSub, Bool.or_eq_true]
    rintro (h | h)
    · exact Or.inl (isPrefixOf_append_mono _ _ _ h)
    · exact Or.inr (ih h)

theorem containsSub_false_of_bare (ai : Str) (suffix : Str)
    (h : containsSub ai MARKER_BARE = false) :
    containsSub ai (MARKER_BARE ++ suffix) = false := by
  cases hc : containsSub ai (MARKER_BARE ++ suffix) with
  | false => rfl
  | true =>
    have := containsSub_append MARKER_BARE suffix ai hc
    rw [h] at this
    cases this

/-- Claim C4: whenever a step's extracted retrieval keyword equals the
immediately preceding retrieval keyword (`last_action`), that step performs
no search and instead appends the synthetic "already searched" observation;
and a step that does search records its keyword as `last_action`, so two
consecutive identical keywords never cause two searches. -/
theorem c4_no_repeat_guard (searchRes : Str → Str) (ai : Str) (st : LoopSt) :
    ((containsSub ai MARKER_HALF || containsSub ai MARKER_FULL) = true →
      extractKeyword ai = st.lastAction →
      (stepFn searchRes ai st).searchLog = st.searchLog
      ∧ (stepFn searchRes ai st).obsLog = st.obsLog ++ [SYNTHETIC_OBS]
      ∧ (stepFn searchRes ai st).lastAction = st.lastAction)
    ∧ ((containsSub ai MARKER_HALF || containsSub ai MARKER_FULL) = true →
      extractKeyword ai ≠ st.lastAction →
      (stepFn searchRes ai st).searchLog = st.searchLog ++ [extractKeyword ai]
      ∧ (stepFn searchRes ai st).lastAction = extractKeyword ai) := by
  constructor
  · intro hmark hkw
    simp only [stepFn, hmark, if_true, hkw, if_pos rfl]
    split
    · exact ⟨rfl, rfl, rfl⟩
    · split
      · exact ⟨rfl, rfl, rfl⟩
      · exact ⟨rfl, rfl, rfl⟩
  · intro hmark hkw
    simp only [stepFn, hmark, if_true, if_neg hkw]
    split
    · exact ⟨rfl, rfl⟩
    · split
      · exact ⟨rfl, rfl⟩
      · exact ⟨rfl, rfl⟩

theorem c4_witness :
    (stepFn (fun _ => chars "R") (chars "Action: 检索: 发热")
        ⟨chars "发热", [], [], [], none⟩).searchLog = []
    ∧ (stepFn (fun _ => chars "R") (chars "Action: 检索: 发热")
        ⟨chars "发热", [], [], [], none⟩).obsLog = [] ++ [SYNTHETIC_OBS]
    ∧ (stepFn (fun _ => chars "R") (chars "Action: 检索: 发热")
        ⟨chars "发热", [], [], [], none⟩).lastAction = chars "发热" :=
  (c4_no_repeat_guard (fun _ => chars "R") (chars "Action: 检索: 发热")
    ⟨chars "发热", [], [], [], none⟩).1 (by decide) (by decide)

/-- Claim C5 counterexample: a 22-character reply containing the word
`检索` without any colon (hence no retrieval marker) and longer than 20
characters does not terminate the loop at that step — the direct-answer
branch requires the substring `检索` to be absent entirely — and a run of
the loop on such replies ends with the `forced` status after the step
budget, not with a successful direct answer. -/
theorem c5_counterexample :
    containsSub (chars "检索过相关资料之后我认为患者应当立即就医复查") MARKER_HALF = false
    ∧ containsSub (chars "检索过相关资料之后我认为患者应当立即就医复查") MARKER_FULL = false
    ∧ 20 < (chars "检索过相关资料之后我认为患者应当立即就医复查").length
    ∧ (stepFn (fun _ => []) (chars "检索过相关资料之后我认为患者应当立即就医复查")
        initLoopSt).breakStatus = none
    ∧ (stepFn (fun _ => []) (chars "检索过相关资料之后我认为患者应当立即就医复查")
        initLoopSt).finalAnswer ≠ chars "检索过相关资料之后我认为患者应当立即就医复查"
    ∧ (runLoop (fun _ => chars "检索过相关资料之后我认为患者应当立即就医复查")
        (fun _ => [])).status = LoopStatus.forced := by
  exact ⟨by decide, by decide, by decide, by decide, by decide, by decide⟩

/-- Claim C5 amended: in every reasoning step, if the reply contains neither
the substring `检索` (so in particular no retrieval marker) nor the literal
`Final Answer`, and its length exceeds 20 characters, the loop terminates
successfully with the entire reply as the final answer (direct-answer
status). -/
theorem c5_direct_answer (searchRes : Str → Str) (ai : Str) (st : LoopSt)
    (h1 : containsSub ai MARKER_BARE = false)
    (h2 : containsSub ai FINAL_MARKER = false)
    (h3 : 20 < ai.length) :
    (stepFn searchRes ai st).breakStatus = some LoopStatus.completeDirect
    ∧ (stepFn searchRes ai st).finalAnswer = ai
    ∧ finalize (stepFn searchRes ai st) ai = (ai, LoopStatus.completeDirect) := by
  have hhalf : containsSub ai MARKER_HALF = false := by
    have := containsSub_false_of_bare ai [':'] h1
    rwa [show MARKER_BARE ++ [':'] = MARKER_HALF from by decide] at this
  have hfull : containsSub ai MARKER_FULL = false := by
    have := containsSub_false_of_bare ai ['：'] h1
    rwa [show MARKER_BARE ++ ['：'] = MARKER_FULL from by decide] at this
  have hne : ai ≠ [] := by
    intro h
    rw [h] at h3
    simp at h3
  have hstep : stepFn searchRes ai st
      = { st with finalAnswer := ai, breakStatus := some LoopStatus.completeDirect } := by
    simp [stepFn, hhalf, hfull, h2, h1, h3]
  refine ⟨by rw [hstep], by rw [hstep], ?_⟩
  rw [hstep]
  simp [finalize, hne]

theorem c5_direct_answer_witness :
    (stepFn (fun _ => []) (chars "根据现有指南建议患者尽快完善血常规检查并及时复诊")
        initLoopSt).breakStatus = some LoopStatus.completeDirect
    ∧ (stepFn (fun _ => []) (chars "根据现有指南建议患者尽快完善血常规检查并及时复诊")
        initLoopSt).finalAnswer = chars "根据现有指南建议患者尽快完善血常规检查并及时复诊"
    ∧ finalize
        (stepFn (fun _ => []) (chars "根据现有指南建议患者尽快完善血常规检查并及时复诊") initLoopSt)
        (chars "根据现有指南建议患者尽快完善血常规检查并及时复诊")
      = (chars "根据现有指南建议患者尽快完善血常规检查并及时复诊", LoopStatus.completeDirect) :=
  c5_direct_answer (fun _ => []) (chars "根据现有指南建议患者尽快完善血常规检查并及时复诊")
    initLoopSt (by decide) (by decide) (by decide)

/-- Claim C9: when the loop exhausts its 5-step budget without an explicit
final answer, the forced-termination fallback uses the last reply verbatim
(status `forced`) when its length exceeds 10 characters, and otherwise emits
the canned no-conclusion message (status `noConclusion`). -/
theorem c9_forced_termination (model : Nat → Str) (searchRes : Str → Str)
    (h1 : (runLoopAux model searchRes MAX_REASONING_STEPS 0 initLoopSt []).1.breakStatus = none)
    (h2 : (runLoopAux model searchRes MAX_REASONING_STEPS 0 initLoopSt []).1.finalAnswer = []) :
    (10 < (runLoopAux model searchRes MAX_REASONING_STEPS 0 initLoopSt []).2.length →
      (runLoop model searchRes).answer
          = (runLoopAux model searchRes MAX_REASONING_STEPS 0 initLoopSt []).2
      ∧ (runLoop model searchRes).status = LoopStatus.forced)
    ∧ ((runLoopAux model searchRes MAX_REASONING_STEPS 0 initLoopSt []).2.length ≤ 10 →
      (runLoop model searchRes).answer = NO_CONCLUSION
      ∧ (runLoop model searchRes).status = LoopStatus.noConclusion) := by
  constructor
  · intro hlen
    simp only [runLoop, finalize, h2, if_pos rfl, if_pos hlen]
    exact ⟨rfl, rfl⟩
  · intro hlen
    simp only [runLoop, finalize, h2, if_pos rfl, if_neg (by omega : ¬ 10 <
      (runLoopAux model searchRes MAX_REASONING_STEPS 0 initLoopSt []).2.length)]
    exact ⟨rfl, rfl⟩

theorem c9_witness :
    (runLoop (fun _ => chars "Action: 检索: 发热寒战高热不退") (fun _ => chars "资料")).answer
        = chars "Action: 检索: 发热寒战高热不退"
    ∧ (runLoop (fun _ => chars "Action: 检索: 发热寒战高热不退")
        (fun _ => chars "资料")).status = LoopStatus.forced := by
  have h := (c9_forced_termination (fun _ => chars "Action: 检索: 发热寒战高热不退")
    (fun _ => chars "资料") (by decide) (by decide)).1 (by decide)
  refine ⟨?_, h.2⟩
  rw [h.1]
  decide

/-! Lemmas on the dedup accumulation of `_multi_recall`. -/

/-- The document component of the dedup fold, in isolation. -/
def dStep (a : List Str) (d : Str) : List Str := if d ∈ a then a else a ++ [d]

theorem multiRecall_eq_okPairs_fold (variants : List (Option (List Str × List Meta))) :
    multiRecall variants = (okPairs variants).foldl dedupStep ([], []) := by
  suffices h : ∀ (vs : List (Option (List Str × List Meta))) (acc : List Str × List Meta),
      vs.foldl
        (fun acc v =>
          match v with
          | none => acc
          | some (docs, metas) => (recallPairs docs metas).foldl dedupStep acc)
        acc = (okPairs vs).foldl dedupStep acc by
    exact h variants ([], [])
  intro vs
  induction vs with
  | nil => intro acc; rfl
  | cons v vs ih =>
    intro acc
    cases v with
    | none => exact ih acc
    | some p =>
      obtain ⟨docs, metas⟩ := p
      simp only [List.foldl_cons, okPairs, List.foldr_cons, List.foldl_append]
      exact ih _

theorem fold_dedupStep_fst (ps : List (Str × Meta)) :
    ∀ (ds : List Str) (ms : List Meta),
      (ps.foldl dedupStep (ds, ms)).1 = (ps.map Prod.fst).foldl dStep ds := by
  induction ps with
  | nil => intro ds ms; rfl
  | cons p ps ih =>
    intro ds ms
    simp only [List.foldl_cons, List.map_cons, dedupStep, dStep]
    split
    · exact ih ds ms
    · exact ih (ds ++ [p.1]) (ms ++ [p.2])

theorem mem_fold_dStep (l : List Str) :
    ∀ (acc : List Str) (x : Str), x ∈ l.foldl dStep acc ↔ x ∈ acc ∨ x ∈ l := by
  induction l with
  | nil => intro acc x; simp
  | cons d l ih =>
    intro acc x
    simp only [List.foldl_cons, dStep]
    split
    · next hd =>
      rw [ih]
      constructor
      · rintro (h | h)
        · exact Or.inl h
        · exact Or.inr (List.mem_cons_of_mem _ h)
      · rintro (h | h)
        · exact Or.inl h
        · rcases List.mem_cons.mp h with rfl | h
          · exact Or.inl hd
          · exact Or.inr h
    · rw [ih]
      simp only [List.mem_append, List.mem_singleton, List.mem_cons]
      tauto

theorem nodup_fold_dStep (l : List Str) :
    ∀ (acc : List Str), acc.Nodup → (l.foldl dStep acc).Nodup := by
  induction l with
  | nil => intro acc h; exact h
  | cons d l ih =>
    intro acc hacc
    simp only [List.foldl_cons, dStep]
    split
    · exact ih acc hacc
    · next hd =>
      refine ih (acc ++ [d]) ?_
      rw [List.nodup_append]
      refine ⟨hacc, List.nodup_singleton d, ?_⟩
      intro a ha hb
      rw [List.mem_singleton] at hb
      subst hb
      exact hd ha

theorem fold_dStep_eq_ddf (l : List Str) :
    ∀ (acc : List Str),
      l.foldl dStep acc = acc ++ ddf (l.filter (fun d => decide (d ∉ acc))) := by
  induction l with
  | nil => intro acc; simp [ddf]
  | cons x l ih =>
    intro acc
    simp only [List.foldl_cons, dStep, List.filter_cons]
    by_cases hx : x ∈ acc
    · rw [if_pos hx, if_neg (by simpa using hx)]
      exact ih acc
    · rw [if_neg hx, if_pos (by simpa using hx)]
      rw [ih (acc ++ [x])]
      have hfilter : l.filter (fun d => decide (d ∉ acc ++ [x]))
          = (l.filter (fun d => decide (d ∉ acc))).filter (fun d => d != x) := by
        rw [List.filter_filter]
        apply List.filter_congr
        intro d _
        simp only [List.mem_append, List.mem_singleton, decide_not, Bool.and_comm]
        cases hda : decide (d ∈ acc) with
        | true => simp [List.mem_append, decide_eq_true_eq.mp hda]
        | false =>
          have hda' : d ∉ acc := by simpa using hda
          by_cases hdx : d = x
          · simp [hdx, hda']
          · simp [hdx, hda']
      rw [hfilter, show ddf (x :: List.filter (fun d => decide (d ∉ acc)) l)
          = x :: ddf ((List.filter (fun d => decide (d ∉ acc)) l).filter (fun y => y != x))
          from by rw [ddf]]
      simp

theorem count_eq_one_of_nodup_mem {l : List Str} {d : Str} (h : l.Nodup) (hd : d ∈ l) :
    l.count d = 1 := by
  induction l with
  | nil => cases hd
  | cons x xs ih =>
    rw [List.nodup_cons] at h
    rcases List.mem_cons.mp hd with rfl | hmem
    · rw [List.count_cons_self, List.count_eq_zero.mpr h.1]
    · have hne : d ≠ x := by
        rintro rfl
        exact h.1 hmem
      rw [List.count_cons_of_ne hne, ih h.2 hmem]

/-- Claim C2: the multi-recall result contains each distinct chunk text
exactly once, at the position of its first occurrence in the
variant-by-variant merge (it equals the first-occurrence dedup `ddf` of the
concatenated per-variant documents), and a failed variant is skipped without
affecting the recall of the remaining variants. -/
theorem c2_multi_recall_dedup (variants : List (Option (List Str × List Meta))) :
    (multiRecall variants).1 = ddf ((okPairs variants).map Prod.fst)
    ∧ (multiRecall variants).1.Nodup
    ∧ (∀ d, d ∈ (multiRecall variants).1 ↔ d ∈ (okPairs variants).map Prod.fst)
    ∧ (∀ d ∈ (multiRecall variants).1, (multiRecall variants).1.count d = 1)
    ∧ ∀ pre post, multiRecall (pre ++ none :: post) = multiRecall (pre ++ post) := by
  have hfst : (multiRecall variants).1 = ((okPairs variants).map Prod.fst).foldl dStep [] := by
    rw [multiRecall_eq_okPairs_fold]
    exact fold_dedupStep_fst (okPairs variants) [] []
  have hddf : (multiRecall variants).1 = ddf ((okPairs variants).map Prod.fst) := by
    rw [hfst, fold_dStep_eq_ddf]
    simp
  have hnodup : (multiRecall variants).1.Nodup := by
    rw [hfst]
    exact nodup_fold_dStep _ [] List.nodup_nil
  refine ⟨hddf, hnodup, ?_, ?_, ?_⟩
  · intro d
    rw [hfst, mem_fold_dStep]
    simp
  · intro d hd
    exact count_eq_one_of_nodup_mem hnodup hd
  · intro pre post
    simp only [multiRecall, List.foldl_append, List.foldl_cons]

theorem c2_witness :
    (multiRecall [some ([chars "X", chars "Y"], [none, none]), none,
        some ([chars "X"], [])]).1.count (chars "X") = 1 :=
  (c2_multi_recall_dedup [some ([chars "X", chars "Y"], [none, none]), none,
    some ([chars "X"], [])]).2.2.2.1 (chars "X") (by decide)

/-! Lemmas on the stable descending sort of `Reranker.rerank`. -/

theorem insertDesc_perm (key : α → Int) (x : α) (l : List α) :
    (insertDesc key x l).Perm (x :: l) := by
  induction l with
  | nil => exact List.Perm.refl _
  | cons y ys ih =>
    simp only [insertDesc]
    split
    · exact List.Perm.refl _
    · exact (ih.cons y).trans (List.Perm.swap x y ys)

theorem sortStableDesc_perm (key : α → Int) (l : List α) :
    (sortStableDesc key l).Perm l := by
  induction l with
  | nil => exact List.Perm.refl _
  | cons x xs ih =>
    exact (insertDesc_perm key x (sortStableDesc key xs)).trans (ih.cons x)

theorem mem_insertDesc (key : α → Int) (x : α) (l : List α) (z : α)
    (hz : z ∈ insertDesc key x l) : z = x ∨ z ∈ l := by
  have := (insertDesc_perm key x l).mem_iff.mp hz
  simpa using this

theorem insertDesc_pairwise (key : α → Int) (pos : α → Nat) (x : α) (l : List α)
    (hl : l.Pairwise (fun a b => key b < key a ∨ (key a = key b ∧ pos a < pos b)))
    (hx : ∀ y ∈ l, pos x < pos y) :
    (insertDesc key x l).Pairwise
      (fun a b => key b < key a ∨ (key a = key b ∧ pos a < pos b)) := by
  induction l with
  | nil => simp [insertDesc]
  | cons y ys ih =>
    rw [List.pairwise_cons] at hl
    obtain ⟨hy, hys⟩ := hl
    simp only [insertDesc]
    split
    · next hle =>
      refine List.Pairwise.cons ?_ (List.Pairwise.cons hy hys)
      intro z hz
      rcases List.mem_cons.mp hz with rfl | hz
      · rcases lt_or_eq_of_le hle with h | h
        · exact Or.inl h
        · exact Or.inr ⟨h.symm, hx z (List.mem_cons_self _ _)⟩
      · rcases hy z hz with h | h
        · exact Or.inl (lt_of_lt_of_le h hle)
        · rcases lt_or_eq_of_le (h.1 ▸ hle) with h2 | h2
          · exact Or.inl h2
          · exact Or.inr ⟨h2.symm, hx z (List.mem_cons_of_mem _ hz)⟩
    · next hgt =>
      push_neg at hgt
      refine List.Pairwise.cons ?_
        (ih hys (fun z hz => hx z (List.mem_cons_of_mem _ hz)))
      intro z hz
      rcases mem_insertDesc key x ys z hz with rfl | hz
      · exact Or.inl hgt
      · exact hy z hz

theorem sortStableDesc_pairwise (key : α → Int) (pos : α → Nat) (l : List α)
    (hl : l.Pairwise (fun a b => pos a < pos b)) :
    (sortStableDesc key l).Pairwise
      (fun a b => key b < key a ∨ (key a = key b ∧ pos a < pos b)) := by
  induction l with
  | nil => simp [sortStableDesc]
  | cons x xs ih =>
    rw [List.pairwise_cons] at hl
    refine insertDesc_pairwise key pos x _ (ih hl.2) ?_
    intro y hy
    exact hl.1 y ((sortStableDesc_perm key xs).mem_iff.mp hy)

theorem insertDesc_map (key : β → Int) (f : α → β) (x : α) (l : List α) :
    insertDesc key (f x) (l.map f) = (insertDesc (fun a => key (f a)) x l).map f := by
  induction l with
  | nil => rfl
  | cons y ys ih =>
    simp only [List.map_cons, insertDesc]
    split
    · simp
    · simp [ih]

theorem sortStableDesc_map (key : β → Int) (f : α → β) (l : List α) :
    sortStableDesc key (l.map f) = (sortStableDesc (fun a => key (f a)) l).map f := by
  induction l with
  | nil => rfl
  | cons x xs ih =>
    simp only [List.map_cons, sortStableDesc, List.foldr_cons] at ih ⊢
    rw [ih, insertDesc_map]

theorem le_fst_of_mem_enumFrom {l : List α} :
    ∀ (n : Nat) (p : Nat × α), p ∈ l.enumFrom n → n ≤ p.1 := by
  induction l with
  | nil => intro n p h; cases h
  | cons x xs ih =>
    intro n p h
    rcases List.mem_cons.mp h with rfl | h
    · exact Nat.le_refl n
    · exact Nat.le_of_succ_le (ih (n + 1) p h)

theorem pairwise_fst_lt_enumFrom (l : List α) :
    ∀ (n : Nat), (l.enumFrom n).Pairwise (fun a b => a.1 < b.1) := by
  induction l with
  | nil => intro n; simp
  | cons x xs ih =>
    intro n
    refine List.Pairwise.cons ?_ (ih (n + 1))
    intro p hp
    exact Nat.lt_of_succ_le (le_fst_of_mem_enumFrom (n + 1) p hp)

theorem enumFrom_map_snd_self (l : List α) :
    ∀ (n : Nat), (l.enumFrom n).map Prod.snd = l := by
  induction l with
  | nil => intro n; rfl
  | cons x xs ih =>
    intro n
    simp only [List.enumFrom, List.map_cons, ih]

/-- Claim C3: the reranker's output is a permutation of its zipped input,
sorted in descending order of score, and it equals the index-annotated
stable sort projected back, whose order is strictly descending on
(score, original position) — so equal scores keep their input order. -/
theorem c3_rerank_stable (query : Str) (documents : List Str) (scores : List Int)
    (metadatas : List Meta) :
    (rerank query documents scores metadatas).Perm
        (documents.zip (scores.zip metadatas))
    ∧ (rerank query documents scores metadatas).Pairwise
        (fun a b => scoreOf b ≤ scoreOf a)
    ∧ rerank query documents scores metadatas
        = (sortStableDesc (fun p => scoreOf p.2)
            ((documents.zip (scores.zip metadatas)).enum)).map Prod.snd
    ∧ (sortStableDesc (fun p => scoreOf p.2)
        ((documents.zip (scores.zip metadatas)).enum)).Pairwise
        (fun a b => scoreOf b.2 < scoreOf a.2
          ∨ (scoreOf a.2 = scoreOf b.2 ∧ a.1 < b.1)) := by
  have hsort : rerank query documents scores metadatas
      = sortStableDesc scoreOf (documents.zip (scores.zip metadatas)) := by
    unfold rerank
    split
    · next h =>
      rw [List.isEmpty_iff.mp h]
      rfl
    · rfl
  have hpair : (sortStableDesc (fun p : Nat × Str × Int × Meta => scoreOf p.2)
      ((documents.zip (scores.zip metadatas)).enum)).Pairwise
      (fun a b => scoreOf b.2 < scoreOf a.2
        ∨ (scoreOf a.2 = scoreOf b.2 ∧ a.1 < b.1)) := by
    exact sortStableDesc_pairwise (fun p => scoreOf p.2) Prod.fst _
      (pairwise_fst_lt_enumFrom _ 0)
  have hmap : rerank query documents scores metadatas
      = (sortStableDesc (fun p => scoreOf p.2)
          ((documents.zip (scores.zip metadatas)).enum)).map Prod.snd := by
    rw [hsort, ← sortStableDesc_map scoreOf Prod.snd, List.enum_eq_enumFrom,
      enumFrom_map_snd_self]
  refine ⟨?_, ?_, hmap, hpair⟩
  · rw [hsort]
    exact sortStableDesc_perm scoreOf _
  · rw [hmap, List.pairwise_map]
    refine hpair.imp ?_
    intro a b h
    rcases h with h | h
    · exact le_of_lt h
    · exact le_of_eq h.1.symm

/-! Lemmas on the top-k / threshold filter of `MedicalSearchEngine.search`. -/

theorem length_fold_keepStep (l : List (Str × Int × Meta)) :
    ∀ (acc : List Str), acc.length ≤ RERANK_TOP_K →
      (l.foldl keepStep acc).length ≤ RERANK_TOP_K := by
  induction l with
  | nil => intro acc h; exact h
  | cons x l ih =>
    intro acc h
    simp only [List.foldl_cons, keepStep]
    split
    · next hc =>
      refine ih _ ?_
      simp only [List.length_append, List.length_singleton]
      omega
    · exact ih acc h

theorem mem_fold_keepStep (l : List (Str × Int × Meta)) :
    ∀ (acc : List Str) (s : Str), s ∈ l.foldl keepStep acc →
      s ∈ acc ∨ ∃ x ∈ l, RERANK_THRESHOLD < scoreOf x ∧ s = annotate x.1 x.2.2 := by
  induction l with
  | nil => intro acc s h; exact Or.inl h
  | cons x l ih =>
    intro acc s h
    simp only [List.foldl_cons, keepStep] at h
    split at h
    · next hc =>
      rcases ih _ s h with hmem | ⟨y, hy, hsc, hs⟩
      · rcases List.mem_append.mp hmem with hmem | hmem
        · exact Or.inl hmem
        · rw [List.mem_singleton] at hmem
          exact Or.inr ⟨x, List.mem_cons_self _ _, hc.2, hmem⟩
      · exact Or.inr ⟨y, List.mem_cons_of_mem _ hy, hsc, hs⟩
    · rcases ih acc s h with hmem | ⟨y, hy, hsc, hs⟩
      · exact Or.inl hmem
      · exact Or.inr ⟨y, List.mem_cons_of_mem _ hy, hsc, hs⟩

theorem fold_keepStep_of_below (l : List (Str × Int × Meta)) :
    ∀ (acc : List Str), (∀ x ∈ l, scoreOf x ≤ RERANK_THRESHOLD) →
      l.foldl keepStep acc = acc := by
  induction l with
  | nil => intro acc _; rfl
  | cons x l ih =>
    intro acc h
    simp only [List.foldl_cons, keepStep]
    rw [if_neg ?_]
    · exact ih acc (fun y hy => h y (List.mem_cons_of_mem _ hy))
    · rintro ⟨-, hsc⟩
      exact absurd (h x (List.mem_cons_self _ _)) (by omega)

/-- Claim C1: the evidence text built by `search` keeps at most
`RERANK_TOP_K = 3` chunks, every kept chunk has rerank score strictly above
`RERANK_THRESHOLD = -10`, and if no chunk passes the filter (while some
were recalled) the literal "relevance too low" sentence is returned; the
returned text is always one of the two canned sentences or the join of the
kept chunks. -/
theorem c1_search_topk_threshold (query : Str)
    (variants : List (Option (List Str × List Meta))) (scores : List Int) :
    (topKFilter (rerank query (multiRecall variants).1 scores
        (multiRecall variants).2)).length ≤ RERANK_TOP_K
    ∧ (∀ s ∈ topKFilter (rerank query (multiRecall variants).1 scores
          (multiRecall variants).2),
        ∃ x ∈ rerank query (multiRecall variants).1 scores (multiRecall variants).2,
          RERANK_THRESHOLD < scoreOf x ∧ s = annotate x.1 x.2.2)
    ∧ ((multiRecall variants).1 ≠ [] →
        (∀ x ∈ rerank query (multiRecall variants).1 scores (multiRecall variants).2,
          scoreOf x ≤ RERANK_THRESHOLD) →
        search query variants scores = LOW_RELEVANCE)
    ∧ (search query variants scores = NO_MATERIAL
       ∨ search query variants scores = LOW_RELEVANCE
       ∨ search query variants scores
           = List.intercalate (chars "\n---\n")
               (topKFilter (rerank query (multiRecall variants).1 scores
                 (multiRecall variants).2))) := by
  refine ⟨length_fold_keepStep _ [] (by decide), ?_, ?_, ?_⟩
  · intro s hs
    rcases mem_fold_keepStep _ [] s hs with h | h
    · cases h
    · exact h
  · intro hne hbelow
    unfold search
    rw [if_neg (by simpa [List.isEmpty_iff] using hne)]
    simp only [topKFilter]
    rw [fold_keepStep_of_below _ [] hbelow]
    rfl
  · by_cases hE : (multiRecall variants).1.isEmpty = true
    · exact Or.inl (by simp [search, hE])
    · by_cases hK : (topKFilter (rerank query (multiRecall variants).1 scores
          (multiRecall variants).2)).isEmpty = true
      · exact Or.inr (Or.inl (by simp [search, hE, hK]))
      · exact Or.inr (Or.inr (by simp [search, hE, hK]))

theorem c1_witness :
    search (chars "请问发热怎么办")
      [some ([chars "儿科发热章节内容"], [some (chars "book.md")])] [-11]
      = LOW_RELEVANCE :=
  (c1_search_topk_threshold (chars "请问发热怎么办")
      [some ([chars "儿科发热章节内容"], [some (chars "book.md")])] [-11]).2.2.1
    (by decide) (by decide)

/-! Lemmas on ingestion (`DocumentEmbedder.process_file`). -/

theorem ingestLoop_all_skipped (filename : Str) (embed : Str → Option (List Int))
    (addErr : Nat → Option Str) (l : List (Nat × Str)) :
    ∀ (processed addCalls : Nat) (db : DB),
      (∀ p ∈ l, p.2.length < 10 ∨ embed p.2 = none) →
      ingestLoop filename embed addErr l [] processed addCalls db
        = (none, processed, addCalls, db) := by
  induction l with
  | nil => intro processed addCalls db _; rfl
  | cons p l ih =>
    intro processed addCalls db h
    obtain ⟨i, chunk⟩ := p
    have hp := h (i, chunk) (List.mem_cons_self _ _)
    have hrest := fun q hq => h q (List.mem_cons_of_mem _ hq)
    simp only [ingestLoop]
    by_cases hlen : chunk.length < 10
    · rw [if_pos hlen]
      exact ih processed addCalls db hrest
    · rw [if_neg hlen]
      rcases hp with hp | hp
      · exact absurd hp hlen
      · rw [hp]
        exact ih processed addCalls db hrest

theorem snd_mem_of_mem_enumFrom {l : List α} :
    ∀ (n : Nat) (p : Nat × α), p ∈ l.enumFrom n → p.2 ∈ l := by
  induction l with
  | nil => intro n p h; cases h
  | cons x xs ih =>
    intro n p h
    rcases List.mem_cons.mp h with rfl | h
    · exact List.mem_cons_self _ _
    · exact List.mem_cons_of_mem _ (ih (n + 1) p h)

/-- Claim C10: when every chunk of a document is skipped (shorter than 10
characters or with a failed embedding), `process_file` reports success with
a stored-chunk count of 0 while writing nothing to the store, so the
filename still does not appear in the source-file listing. -/
theorem c10_vacuous_success (content filename : Str)
    (embed : Str → Option (List Int)) (addErr : Nat → Option Str) (db : DB)
    (h0 : filename ∉ get_existing_files db)
    (h1 : split_smart content CHUNK_SIZE CHUNK_OVERLAP_LINES ≠ [])
    (h2 : ∀ c ∈ split_smart content CHUNK_SIZE CHUNK_OVERLAP_LINES,
        c.length < 10 ∨ embed c = none) :
    process_file content filename embed addErr db = (.ok 0, db)
    ∧ filename ∉ get_existing_files (process_file content filename embed addErr db).2 := by
  have hmain : process_file content filename embed addErr db = (.ok 0, db) := by
    unfold process_file
    rw [if_neg h0, if_neg (by simpa [List.isEmpty_iff] using h1)]
    rw [ingestLoop_all_skipped filename embed addErr _ 0 0 db ?_]
    intro p hp
    exact h2 p.2 (snd_mem_of_mem_enumFrom 0 p hp)
  refine ⟨hmain, ?_⟩
  rw [hmain]
  exact h0

theorem c10_witness :
    process_file (chars "") (chars "a.md") (fun _ => none) (fun _ => none) []
      = (.ok 0, []) :=
  (c10_vacuous_success (chars "") (chars "a.md") (fun _ => none) (fun _ => none) []
    (by decide) (by decide) (by decide)).1

end MedAssist
